import Mathlib

/-!
# ByteArray.hpp: a shallow embedding and its verified properties

The C++ class `ByteArray` (a `std::vector<byte>` with an `endian` field) is
embedded as a record of a byte list and an endian mode.  Member functions
become functions on that record.  Operations whose C++ behaviour is undefined
on some inputs (unchecked pointer reads, `memcpy` between overlapping regions,
`pop_back` on an empty string, a function body that ends without its `return`
statement) return an `Outcome`, which keeps apart a returned value, a reported
error and undefined behaviour.

Conventions:
* a pointer/length pair `(const byte *v, size_t len)` is the list of the `len`
  bytes at `v`; a `std::string` is the list of its `char` code units, and a
  `char` is identified with the byte of the same bits (the source casts
  `const char *` to `const byte *`);
* the compile-time host byte order (`__BYTE_ORDER__`) is the parameter
  `hostLittle : Bool`, and the signedness of plain `char` is the parameter
  `charSigned : Bool`;
* `size_t` subtraction wraps around modulo `2^64`;
* a `float` or `double` is known by its bit pattern only.
-/

namespace ByteArrayHpp

set_option autoImplicit false

/-- The source's `typedef unsigned char byte`. -/
abbrev byte := Fin 256

/-- The source's `enum struct Endian`. -/
inductive Endian where
  | System
  | Little
  | Big
  deriving DecidableEq

/-- The class `ByteArray`: the inherited `std::vector<byte>` and the field
`endian` (default `Endian::System`). -/
structure ByteArray where
  bytes : List byte := []
  endian : Endian := Endian.System
  deriving DecidableEq

/-- What a call can do: return a value, report an error (an exception or an
error result), or run into undefined behaviour. -/
inductive Outcome (α : Type) where
  | value (a : α)
  | error
  | undefined
  deriving DecidableEq

/-- Sequencing of outcomes: the first failure ends the computation. -/
def Outcome.bind {α β : Type} (x : Outcome α) (f : α → Outcome β) : Outcome β :=
  match x with
  | Outcome.value a => f a
  | Outcome.error => Outcome.error
  | Outcome.undefined => Outcome.undefined

/-- Post-processing of a returned value. -/
def Outcome.map {α β : Type} (f : α → β) (x : Outcome α) : Outcome β :=
  match x with
  | Outcome.value a => Outcome.value (f a)
  | Outcome.error => Outcome.error
  | Outcome.undefined => Outcome.undefined

/-- The modulus of `size_t` arithmetic. -/
def SIZE_MOD : Nat := 2 ^ 64

/-- Subtraction `a - b` of two `size_t` values (both below `SIZE_MOD`), which
wraps around when `a < b`. -/
def size_sub (a b : Nat) : Nat := if b ≤ a then a - b else a + SIZE_MOD - b

/-! ## Storage and positional mutation -/

/-- The member `size()`. -/
def ByteArray.size (ba : ByteArray) : Nat := ba.bytes.length

/-- The member `clear()` of `std::vector`: drops the bytes, keeps `endian`. -/
def ByteArray.clear (ba : ByteArray) : ByteArray := { ba with bytes := [] }

/-- The member `resize(n)` of `std::vector`: truncates, or pads with zero
bytes. -/
def ByteArray.resize (ba : ByteArray) (n : Nat) : ByteArray :=
  { ba with bytes := ba.bytes.take n ++ List.replicate (n - ba.bytes.length) 0 }

/-- A `memcpy(data + dst, data + src, n)` inside one storage `mem`.  With
`n > 0` the two regions must lie inside the storage and must not overlap;
otherwise the behaviour is undefined. -/
def memcpy_within (mem : List byte) (dst src n : Nat) : Outcome (List byte) :=
  if n = 0 then
    if dst ≤ mem.length ∧ src ≤ mem.length then Outcome.value mem else Outcome.undefined
  else if dst + n ≤ mem.length ∧ src + n ≤ mem.length ∧ (src + n ≤ dst ∨ dst + n ≤ src) then
    Outcome.value (mem.take dst ++ (mem.drop src).take n ++ mem.drop (dst + n))
  else Outcome.undefined

/-- A `memcpy(data + dst, v, len)` from a separate array `v` of `len` bytes
into the storage `mem`; the destination region must lie inside the storage. -/
def memcpy_from (mem : List byte) (dst : Nat) (v : List byte) : Outcome (List byte) :=
  if dst + v.length ≤ mem.length then
    Outcome.value (mem.take dst ++ v ++ mem.drop (dst + v.length))
  else Outcome.undefined

/-- The member `append(const byte *v, size_t len)`, step by step:
`resize(size() + len)`, then `memcpy(data() + size() - len, v, len)`. -/
def ByteArray.append_ptr (ba : ByteArray) (v : List byte) : Outcome ByteArray :=
  let len := v.length
  let r := ba.resize (ba.size + len)
  (memcpy_from r.bytes (size_sub r.size len) v).bind
    fun m => Outcome.value { r with bytes := m }

/-- The effect of `append`: the new bytes follow the old ones.  It is the value
of `append_ptr`, whose `memcpy` always stays inside the storage
(`append_ptr_eq`); `append(const ByteArray &)` and `append(const std::string &)`
insert at `end()` with the same effect. -/
def ByteArray.append (ba : ByteArray) (v : List byte) : ByteArray :=
  { ba with bytes := ba.bytes ++ v }

/-- The member `append(const byte v)`: `push_back`. -/
def ByteArray.appendByte (ba : ByteArray) (v : byte) : ByteArray :=
  { ba with bytes := ba.bytes ++ [v] }

/-- The member `writeBytes(const byte *v, size_t len, size_t offset)`:
`resize(size() + len)`, then
`memcpy(data() + offset + len, data() + offset, size() - offset - len)`, then
`memcpy(data() + offset, v, len)`. -/
def ByteArray.writeBytes (ba : ByteArray) (v : List byte) (offset : Nat) :
    Outcome ByteArray :=
  let len := v.length
  let r := ba.resize (ba.size + len)
  (memcpy_within r.bytes (offset + len) offset (size_sub (size_sub r.size offset) len)).bind
    fun m1 => (memcpy_from m1 offset v).bind
      fun m2 => Outcome.value { r with bytes := m2 }

/-- The member `append(const ByteArray &v)`: `insert(end(), v.begin(), v.end())`. -/
def ByteArray.appendArray (ba v : ByteArray) : ByteArray :=
  { ba with bytes := ba.bytes ++ v.bytes }

/-- The members `assign(const byte *v, size_t len)`, `assign(const char *v,
size_t len)` and `assign(const std::string &v)`: `clear()`, then `append`. -/
def ByteArray.assign (ba : ByteArray) (v : List byte) : ByteArray :=
  ba.clear.append v

/-- The member `assign(const ByteArray &v)`, for a `v` that is another object:
`clear()`, then `append(v)`. -/
def ByteArray.assignArray (ba v : ByteArray) : ByteArray :=
  ba.clear.appendArray v

/-- The constructor `ByteArray(const byte *data, size_t len)`: a fresh object
(no bytes, `endian` at its default `Endian::System`), then `append(data, len)`. -/
def ByteArray.ofBytes (data : List byte) : ByteArray :=
  (ByteArray.mk [] Endian.System).append data

/-- The copy constructor `ByteArray(const ByteArray &data)`: a fresh object (no
bytes, `endian` at its default `Endian::System`), then `append(data)`. -/
def ByteArray.copy (data : ByteArray) : ByteArray :=
  (ByteArray.mk [] Endian.System).appendArray data

/-! ## Typed codec -/

/-- The fixed-width unsigned integer types. -/
abbrev uint8_t := Fin 256
abbrev uint16_t := Fin 65536
abbrev uint32_t := Fin 4294967296
abbrev uint64_t := Fin 18446744073709551616

/-- The fixed-width signed integer types (two's complement ranges). -/
abbrev int8_t := { v : Int // -128 ≤ v ∧ v < 128 }
abbrev int16_t := { v : Int // -32768 ≤ v ∧ v < 32768 }
abbrev int32_t := { v : Int // -2147483648 ≤ v ∧ v < 2147483648 }
abbrev int64_t := { v : Int // -9223372036854775808 ≤ v ∧ v < 9223372036854775808 }

/-- A `float`, known by its 32-bit pattern only. -/
structure float where
  bits : uint32_t
  deriving DecidableEq

/-- A `double`, known by its 64-bit pattern only. -/
structure double where
  bits : uint64_t
  deriving DecidableEq

/-- Conversion of a number to an unsigned type: reduction modulo `2^w`. -/
def to_uint8 (n : Nat) : uint8_t := ⟨n % 256, Nat.mod_lt _ (by decide)⟩
def to_uint16 (n : Nat) : uint16_t := ⟨n % 65536, Nat.mod_lt _ (by decide)⟩
def to_uint32 (n : Nat) : uint32_t := ⟨n % 4294967296, Nat.mod_lt _ (by decide)⟩
def to_uint64 (n : Nat) : uint64_t := ⟨n % 18446744073709551616, Nat.mod_lt _ (by decide)⟩

/-- The `k` bytes of `n`, least significant first. -/
def toLE : Nat → Nat → List byte
  | 0, _ => []
  | k + 1, n => ⟨n % 256, Nat.mod_lt _ (by decide)⟩ :: toLE k (n / 256)

/-- The number whose bytes, least significant first, are given. -/
def fromLE : List byte → Nat
  | [] => 0
  | b :: bs => b.val + 256 * fromLE bs

/-- The object representation of a `k`-byte unsigned integer in host memory
(what `(byte *) &value` points to). -/
def object_bytes (hostLittle : Bool) (k n : Nat) : List byte :=
  if hostLittle then toLE k n else (toLE k n).reverse

/-- The unsigned integer whose object representation in host memory is given
(what `*(uintN_t *) p` reads). -/
def object_value (hostLittle : Bool) (bs : List byte) : Nat :=
  if hostLittle then fromLE bs else fromLE bs.reverse

/-- The `k`-byte number `n` with the order of its bytes reversed. -/
def bswap_bytes (k n : Nat) : Nat := fromLE (toLE k n).reverse

/-- The compiler builtins `__builtin_bswapN`: the value with the order of its
bytes reversed. -/
def __builtin_bswap16 (x : uint16_t) : uint16_t := to_uint16 (bswap_bytes 2 x.val)
def __builtin_bswap32 (x : uint32_t) : uint32_t := to_uint32 (bswap_bytes 4 x.val)
def __builtin_bswap64 (x : uint64_t) : uint64_t := to_uint64 (bswap_bytes 8 x.val)

/-- The casts `(intN_t) u` of an unsigned value: the same bits read as two's
complement. -/
def to_int8 (u : uint8_t) : int8_t :=
  if h : u.val < 128 then ⟨(u.val : Int), by omega⟩
  else ⟨(u.val : Int) - 256, by have := u.isLt; omega⟩
def to_int16 (u : uint16_t) : int16_t :=
  if h : u.val < 32768 then ⟨(u.val : Int), by omega⟩
  else ⟨(u.val : Int) - 65536, by have := u.isLt; omega⟩
def to_int32 (u : uint32_t) : int32_t :=
  if h : u.val < 2147483648 then ⟨(u.val : Int), by omega⟩
  else ⟨(u.val : Int) - 4294967296, by have := u.isLt; omega⟩
def to_int64 (u : uint64_t) : int64_t :=
  if h : u.val < 9223372036854775808 then ⟨(u.val : Int), by omega⟩
  else ⟨(u.val : Int) - 18446744073709551616, by have := u.isLt; omega⟩

/-- The reinterpretations `*(uintN_t *) &value` of a signed value: its residue
modulo `2^N`. -/
def bits_int8 (v : int8_t) : uint8_t := to_uint8 (v.val % 256).toNat
def bits_int16 (v : int16_t) : uint16_t := to_uint16 (v.val % 65536).toNat
def bits_int32 (v : int32_t) : uint32_t := to_uint32 (v.val % 4294967296).toNat
def bits_int64 (v : int64_t) : uint64_t := to_uint64 (v.val % 18446744073709551616).toNat

/-- The member `getSystemEndian()`, decided by the host byte order. -/
def getSystemEndian (hostLittle : Bool) : Endian :=
  if hostLittle then Endian.Little else Endian.Big

/-- The member `setEndian(value)`. -/
def ByteArray.setEndian (ba : ByteArray) (value : Endian) : ByteArray :=
  { ba with endian := value }

/-- The test `endian != Endian::System && endian != getSystemEndian()` that
guards every byte swap. -/
def ByteArray.swaps (ba : ByteArray) (hostLittle : Bool) : Bool :=
  decide (ba.endian ≠ Endian.System) && decide (ba.endian ≠ getSystemEndian hostLittle)

/-- The unchecked access `data() + offset` to `k` bytes: the bytes when they
lie inside the storage, undefined behaviour otherwise.  The source has no
bounds check and no error path. -/
def load (mem : List byte) (offset k : Nat) : Outcome (List byte) :=
  if offset + k ≤ mem.length then Outcome.value ((mem.drop offset).take k)
  else Outcome.undefined

/-- The unchecked one-byte access `*(data() + offset)`. -/
def load_byte (mem : List byte) (offset : Nat) : Outcome byte :=
  if h : offset < mem.length then Outcome.value (mem.get ⟨offset, h⟩)
  else Outcome.undefined

/-- The member `readBytes(len, offset)`: `ByteArray(data() + offset, len)`,
whose `memcpy` reads `len` bytes at `data() + offset` without a bounds check.
The result pairs the returned buffer with `*this` after the call, to which
the source writes nothing. -/
def ByteArray.readBytes (ba : ByteArray) (len offset : Nat) :
    Outcome (ByteArray × ByteArray) :=
  (load ba.bytes offset len).map fun bs => (ByteArray.ofBytes bs, ba)

/-- The member `readByte(offset)`. -/
def ByteArray.readByte (ba : ByteArray) (offset : Nat) : Outcome byte :=
  load_byte ba.bytes offset

/-- The member `writeByte(value)`. -/
def ByteArray.writeByte (ba : ByteArray) (value : byte) : ByteArray :=
  ba.append [value]

/-- The member `readBool(offset)`: the byte read as a `bool`; only the bytes 0
and 1 represent a `bool`. -/
def ByteArray.readBool (ba : ByteArray) (offset : Nat) : Outcome Bool :=
  (load_byte ba.bytes offset).bind fun b =>
    if b = 0 then Outcome.value false
    else if b = 1 then Outcome.value true
    else Outcome.undefined

/-- The member `writeBool(value)`: appends the one byte of the `bool` object. -/
def ByteArray.writeBool (ba : ByteArray) (value : Bool) : ByteArray :=
  ba.append [if value then 1 else 0]

/-- The member `readUint8(offset)`. -/
def ByteArray.readUint8 (ba : ByteArray) (offset : Nat) : Outcome uint8_t :=
  load_byte ba.bytes offset

/-- The member `writeUint8(value)`. -/
def ByteArray.writeUint8 (ba : ByteArray) (value : uint8_t) : ByteArray :=
  ba.append [value]

/-- The member `readUint16(offset)`. -/
def ByteArray.readUint16 (ba : ByteArray) (hostLittle : Bool) (offset : Nat) :
    Outcome uint16_t :=
  (load ba.bytes offset 2).map fun bs =>
    let result := to_uint16 (object_value hostLittle bs)
    if ba.swaps hostLittle then __builtin_bswap16 result else result

/-- The member `writeUint16(value)`. -/
def ByteArray.writeUint16 (ba : ByteArray) (hostLittle : Bool) (value : uint16_t) :
    ByteArray :=
  let value := if ba.swaps hostLittle then __builtin_bswap16 value else value
  ba.append (object_bytes hostLittle 2 value.val)

/-- The member `readUint32(offset)`. -/
def ByteArray.readUint32 (ba : ByteArray) (hostLittle : Bool) (offset : Nat) :
    Outcome uint32_t :=
  (load ba.bytes offset 4).map fun bs =>
    let result := to_uint32 (object_value hostLittle bs)
    if ba.swaps hostLittle then __builtin_bswap32 result else result

/-- The member `writeUint32(value)`. -/
def ByteArray.writeUint32 (ba : ByteArray) (hostLittle : Bool) (value : uint32_t) :
    ByteArray :=
  let value := if ba.swaps hostLittle then __builtin_bswap32 value else value
  ba.append (object_bytes hostLittle 4 value.val)

/-- The member `readUint64(offset)`. -/
def ByteArray.readUint64 (ba : ByteArray) (hostLittle : Bool) (offset : Nat) :
    Outcome uint64_t :=
  (load ba.bytes offset 8).map fun bs =>
    let result := to_uint64 (object_value hostLittle bs)
    if ba.swaps hostLittle then __builtin_bswap64 result else result

/-- The member `writeUint64(value)`. -/
def ByteArray.writeUint64 (ba : ByteArray) (hostLittle : Bool) (value : uint64_t) :
    ByteArray :=
  let value := if ba.swaps hostLittle then __builtin_bswap64 value else value
  ba.append (object_bytes hostLittle 8 value.val)

/-- The member `readInt8(offset)`. -/
def ByteArray.readInt8 (ba : ByteArray) (offset : Nat) : Outcome int8_t :=
  (load_byte ba.bytes offset).map to_int8

/-- The member `writeInt8(value)`. -/
def ByteArray.writeInt8 (ba : ByteArray) (value : int8_t) : ByteArray :=
  ba.append [bits_int8 value]

/-- The member `readInt16(offset)`. -/
def ByteArray.readInt16 (ba : ByteArray) (hostLittle : Bool) (offset : Nat) :
    Outcome int16_t :=
  (ba.readUint16 hostLittle offset).map to_int16

/-- The member `writeInt16(value)`. -/
def ByteArray.writeInt16 (ba : ByteArray) (hostLittle : Bool) (value : int16_t) :
    ByteArray :=
  ba.writeUint16 hostLittle (bits_int16 value)

/-- The member `readInt32(offset)`. -/
def ByteArray.readInt32 (ba : ByteArray) (hostLittle : Bool) (offset : Nat) :
    Outcome int32_t :=
  (ba.readUint32 hostLittle offset).map to_int32

/-- The member `writeInt32(value)`. -/
def ByteArray.writeInt32 (ba : ByteArray) (hostLittle : Bool) (value : int32_t) :
    ByteArray :=
  ba.writeUint32 hostLittle (bits_int32 value)

/-- The member `readInt64(offset)`. -/
def ByteArray.readInt64 (ba : ByteArray) (hostLittle : Bool) (offset : Nat) :
    Outcome int64_t :=
  (ba.readUint64 hostLittle offset).map to_int64

/-- The member `writeInt64(value)`. -/
def ByteArray.writeInt64 (ba : ByteArray) (hostLittle : Bool) (value : int64_t) :
    ByteArray :=
  ba.writeUint64 hostLittle (bits_int64 value)

/-- The member `readFloat(offset)`. -/
def ByteArray.readFloat (ba : ByteArray) (hostLittle : Bool) (offset : Nat) :
    Outcome float :=
  (ba.readUint32 hostLittle offset).map float.mk

/-- The member `writeFloat(value)`. -/
def ByteArray.writeFloat (ba : ByteArray) (hostLittle : Bool) (value : float) :
    ByteArray :=
  ba.writeUint32 hostLittle value.bits

/-- The member `readDouble(offset)`. -/
def ByteArray.readDouble (ba : ByteArray) (hostLittle : Bool) (offset : Nat) :
    Outcome double :=
  (ba.readUint64 hostLittle offset).map double.mk

/-- The member `writeDouble(value)`. -/
def ByteArray.writeDouble (ba : ByteArray) (hostLittle : Bool) (value : double) :
    ByteArray :=
  ba.writeUint64 hostLittle value.bits

/-! ## Hex codec -/

/-- The space character `' '`. -/
def SPACE : byte := 0x20

/-- The table `lookup[] = "0123456789ABCDEF"` of `toHex`, with its terminating
zero. -/
def lookup : List byte :=
  [0x30, 0x31, 0x32, 0x33, 0x34, 0x35, 0x36, 0x37, 0x38, 0x39,
   0x41, 0x42, 0x43, 0x44, 0x45, 0x46, 0x00]

/-- The bits of `char ch = bytes[i]` after promotion to a 32-bit `int`: sign
extended where `char` is signed. -/
def char_to_int (charSigned : Bool) (b : byte) : Nat :=
  if charSigned && decide (128 ≤ b.val) then b.val + (4294967296 - 256) else b.val

/-- The character `lookup[(ch & 0xF0) >> 4]`. -/
def hex_hi (charSigned : Bool) (b : byte) : byte :=
  lookup.getD ((char_to_int charSigned b &&& 0xF0) >>> 4) 0

/-- The character `lookup[(ch & 0x0F)]`. -/
def hex_lo (charSigned : Bool) (b : byte) : byte :=
  lookup.getD (char_to_int charSigned b &&& 0x0F) 0

/-- The `while (i < len)` loop of `toHex` over the bytes still to visit, with
the string built so far. -/
def toHex_loop (charSigned pretty : Bool) : List byte → List byte → List byte
  | [], result => result
  | ch :: rest, result =>
    let r1 := result ++ [hex_hi charSigned ch]
    let r2 := r1 ++ [hex_lo charSigned ch]
    let r3 := if pretty then r2 ++ [SPACE] else r2
    toHex_loop charSigned pretty rest r3

/-- The member `pop_back()` of `std::string`: undefined on the empty string. -/
def pop_back (s : List byte) : Outcome (List byte) :=
  if s = [] then Outcome.undefined else Outcome.value s.dropLast

/-- The member `toHex(pretty)`. -/
def ByteArray.toHex (ba : ByteArray) (charSigned pretty : Bool) : Outcome (List byte) :=
  let result := toHex_loop charSigned pretty ba.bytes []
  if pretty then pop_back result else Outcome.value result

/-- The private helper `hex_to_unit(ch)`. -/
def hex_to_unit (ch : byte) : Nat :=
  if 0x30 ≤ ch.val ∧ ch.val ≤ 0x39 then ch.val - 0x30
  else if 0x41 ≤ ch.val ∧ ch.val ≤ 0x46 then ch.val - 0x41 + 10
  else if 0x61 ≤ ch.val ∧ ch.val ≤ 0x66 then ch.val - 0x61 + 10
  else 0

/-- The private helper `hex_to_byte(src)` on the two characters `src[0]`,
`src[1]`. -/
def hex_to_byte (c0 c1 : byte) : byte :=
  ⟨(hex_to_unit c0 * 16 + hex_to_unit c1) % 256, Nat.mod_lt _ (by decide)⟩

/-- The `for` loop of `appendHex(const byte *v, size_t len)` over the
characters `v[i], v[i+1], ...` still to visit. -/
def appendHex_loop : List byte → ByteArray → ByteArray
  | [], ba => ba
  | [c], ba => if c = SPACE then ba else ba
  | c :: d :: rest, ba =>
    if c = SPACE then appendHex_loop (d :: rest) ba
    else if d = SPACE then appendHex_loop (d :: rest) ba
    else appendHex_loop rest (ba.appendByte (hex_to_byte c d))

/-- The member `appendHex(const byte *v, size_t len)`. -/
def ByteArray.appendHex (ba : ByteArray) (v : List byte) : ByteArray :=
  appendHex_loop v ba

/-- The member `appendHex(const std::string &v)`: it calls
`appendHex(v.data(), v.size())` and then reaches the end of its body, which has
no `return` statement although the function returns `ByteArray &`.  Flowing off
the end of such a function is undefined behaviour, on every call. -/
def ByteArray.appendHex_string (ba : ByteArray) (v : List byte) : Outcome ByteArray :=
  (Outcome.value (ba.appendHex v)).bind fun _ => Outcome.undefined

/-- The member `assignHex(const std::string &v)`: `clear()`, then
`return appendHex(v)`, the `std::string` overload. -/
def ByteArray.assignHex (ba : ByteArray) (v : List byte) : Outcome ByteArray :=
  ba.clear.appendHex_string v

/-- The member `fromHex(const std::string &v)`: it calls `assignHex(v)` and
then reaches the end of its body, which has no `return` statement either. -/
def ByteArray.fromHex (ba : ByteArray) (v : List byte) : Outcome ByteArray :=
  (ba.assignHex v).bind fun _ => Outcome.undefined

/-! ## Notions used to state the properties -/

/-- The hex digit character of a nibble `n < 16`: from `0123456789ABCDEF`, or
from `0123456789abcdef` when `lower` is set. -/
def hex_digit (lower : Bool) (n : Nat) : byte :=
  if lower then
    ([0x30, 0x31, 0x32, 0x33, 0x34, 0x35, 0x36, 0x37, 0x38, 0x39,
      0x61, 0x62, 0x63, 0x64, 0x65, 0x66] : List byte).getD n 0
  else
    ([0x30, 0x31, 0x32, 0x33, 0x34, 0x35, 0x36, 0x37, 0x38, 0x39,
      0x41, 0x42, 0x43, 0x44, 0x45, 0x46] : List byte).getD n 0

/-- The two uppercase hex digits of a byte: high nibble, then low nibble. -/
def hex_pair (b : byte) : List byte :=
  [hex_digit false (b.val / 16), hex_digit false (b.val % 16)]

/-- One byte of a spaced hex text: the byte, the letter case of each of its two
digits, and the number of spaces that follow the pair. -/
structure HexItem where
  value : byte
  lower_hi : Bool
  lower_lo : Bool
  spaces_after : Nat

/-- The characters of one item: its two digits, then its spaces. -/
def HexItem.text (it : HexItem) : List byte :=
  [hex_digit it.lower_hi (it.value.val / 16), hex_digit it.lower_lo (it.value.val % 16)]
    ++ List.replicate it.spaces_after SPACE

/-- A hex text with `lead` spaces before the first pair and any number of
spaces after each pair, none inside a pair. -/
def spaced_text (lead : Nat) (items : List HexItem) : List byte :=
  List.replicate lead SPACE ++ (items.map HexItem.text).flatten

/-- The byte of significance `i` of the number `n`: `n / 256^i mod 256`. -/
def byte_of (n i : Nat) : byte := to_uint8 (n / 256 ^ i)

/-- The `k` bytes of `n` in order of rising significance (least significant
byte first). -/
def lsb_first (k n : Nat) : List byte := (List.range k).map (byte_of n)

/-- The `k` bytes of `n` in order of falling significance (most significant
byte first). -/
def msb_first (k n : Nat) : List byte := ((List.range k).map (byte_of n)).reverse

/-- The signed reading of an `N`-bit pattern `u`: `u` below `2^(N-1)`, and
`u - 2^N` from there on. -/
def signed_of (N u : Nat) : Int :=
  if u < 2 ^ (N - 1) then (u : Int) else (u : Int) - 2 ^ N

/-- The value of a hex digit character: the nibble whose uppercase or lowercase
digit it is, and 0 for every other character. -/
def hex_value (c : byte) : Nat :=
  ((List.range 16).find? fun n => hex_digit false n = c || hex_digit true n = c).getD 0

/-- The uppercase form of a character: `a`-`z` become `A`-`Z`. -/
def to_upper (c : byte) : byte :=
  if 0x61 ≤ c.val ∧ c.val ≤ 0x7A then to_uint8 (c.val - 0x20) else c

/-- The lowercase form of a character: `A`-`Z` become `a`-`z`. -/
def to_lower (c : byte) : byte :=
  if 0x41 ≤ c.val ∧ c.val ≤ 0x5A then to_uint8 (c.val + 0x20) else c

/-- The frame of a write of `w` bytes that takes the buffer `ba` to `r`: the
old bytes are the first bytes of `r`, the endian field is the same, and the
length has grown by `w`. -/
def appended (ba r : ByteArray) (w : Nat) : Prop :=
  r.bytes.take ba.size = ba.bytes ∧ r.endian = ba.endian ∧ r.size = ba.size + w

/-! ## Lemmas on storage -/

theorem append_ptr_eq (ba : ByteArray) (v : List byte) :
    ba.append_ptr v = Outcome.value (ba.append v) := by
  have h1 : List.take (ba.bytes.length + v.length) ba.bytes = ba.bytes :=
    List.take_of_length_le (by omega)
  have h2 : List.drop (ba.bytes.length + v.length)
      (ba.bytes ++ List.replicate v.length (0 : byte)) = [] :=
    List.drop_of_length_le (by simp)
  simp [ByteArray.append_ptr, ByteArray.append, ByteArray.resize, ByteArray.size, memcpy_from,
    size_sub, Outcome.bind, h1, h2]

/-! ## Lemmas on byte representations -/

theorem toLE_length (k n : Nat) : (toLE k n).length = k := by
  induction k generalizing n with
  | zero => rfl
  | succ k ih => simp [toLE, ih]

theorem fromLE_lt (bs : List byte) : fromLE bs < 256 ^ bs.length := by
  induction bs with
  | nil => simp [fromLE]
  | cons b bs ih =>
    have hb := b.isLt
    simp only [fromLE, List.length_cons, pow_succ]
    omega

theorem fromLE_toLE (k n : Nat) : fromLE (toLE k n) = n % 256 ^ k := by
  induction k generalizing n with
  | zero => simp [toLE, fromLE, Nat.mod_one]
  | succ k ih =>
    simp only [toLE, fromLE, ih, pow_succ']
    rw [Nat.mod_mul]

theorem toLE_fromLE (bs : List byte) : toLE bs.length (fromLE bs) = bs := by
  induction bs with
  | nil => rfl
  | cons b bs ih =>
    have hb := b.isLt
    have h1 : (b.val + 256 * fromLE bs) / 256 = fromLE bs := by omega
    have h2 : (b.val + 256 * fromLE bs) % 256 = b.val := by omega
    simp only [List.length_cons, toLE, fromLE, h1, ih]
    congr 1
    exact Fin.ext h2

theorem bswap_bytes_lt (k n : Nat) : bswap_bytes k n < 256 ^ k := by
  have h := fromLE_lt (toLE k n).reverse
  simpa [bswap_bytes, toLE_length] using h

theorem toLE_bswap_bytes (k n : Nat) : toLE k (bswap_bytes k n) = (toLE k n).reverse := by
  have h := toLE_fromLE (toLE k n).reverse
  simpa [bswap_bytes, toLE_length] using h

theorem bswap_bytes_bswap_bytes (k n : Nat) (hn : n < 256 ^ k) :
    bswap_bytes k (bswap_bytes k n) = n := by
  unfold bswap_bytes
  rw [show fromLE (toLE k n).reverse = bswap_bytes k n from rfl, toLE_bswap_bytes,
    List.reverse_reverse, fromLE_toLE, Nat.mod_eq_of_lt hn]

theorem object_value_object_bytes (hostLittle : Bool) (k n : Nat) (hn : n < 256 ^ k) :
    object_value hostLittle (object_bytes hostLittle k n) = n := by
  cases hostLittle <;>
    simp [object_value, object_bytes, fromLE_toLE, Nat.mod_eq_of_lt hn]

theorem object_bytes_length (hostLittle : Bool) (k n : Nat) :
    (object_bytes hostLittle k n).length = k := by
  cases hostLittle <;> simp [object_bytes, toLE_length]

theorem object_bytes_bswap (hostLittle : Bool) (k n : Nat) :
    object_bytes hostLittle k (bswap_bytes k n) = (object_bytes hostLittle k n).reverse := by
  cases hostLittle <;> simp [object_bytes, toLE_bswap_bytes]

theorem load_append (mem v : List byte) :
    load (mem ++ v) mem.length v.length = Outcome.value v := by
  simp [load]

theorem load_byte_append (mem : List byte) (b : byte) (rest : List byte) :
    load_byte (mem ++ b :: rest) mem.length = Outcome.value b := by
  have h : mem.length < (mem ++ b :: rest).length := by simp
  have hg : (mem ++ b :: rest)[mem.length] = b := by
    rw [List.getElem_append_right (Nat.le_refl _)]
    simp
  simp [load_byte, hg]

/-! ## Lemmas on the typed codec -/

theorem bswap16_bswap16 (x : uint16_t) : __builtin_bswap16 (__builtin_bswap16 x) = x := by
  apply Fin.ext
  have h1 : bswap_bytes 2 x.val < 65536 := bswap_bytes_lt 2 x.val
  have h2 := bswap_bytes_bswap_bytes 2 x.val x.isLt
  simp only [__builtin_bswap16, to_uint16]
  rw [Nat.mod_eq_of_lt h1, h2, Nat.mod_eq_of_lt x.isLt]

theorem bswap32_bswap32 (x : uint32_t) : __builtin_bswap32 (__builtin_bswap32 x) = x := by
  apply Fin.ext
  have h1 : bswap_bytes 4 x.val < 4294967296 := bswap_bytes_lt 4 x.val
  have h2 := bswap_bytes_bswap_bytes 4 x.val x.isLt
  simp only [__builtin_bswap32, to_uint32]
  rw [Nat.mod_eq_of_lt h1, h2, Nat.mod_eq_of_lt x.isLt]

theorem bswap64_bswap64 (x : uint64_t) : __builtin_bswap64 (__builtin_bswap64 x) = x := by
  apply Fin.ext
  have h1 : bswap_bytes 8 x.val < 18446744073709551616 := bswap_bytes_lt 8 x.val
  have h2 := bswap_bytes_bswap_bytes 8 x.val x.isLt
  simp only [__builtin_bswap64, to_uint64]
  rw [Nat.mod_eq_of_lt h1, h2, Nat.mod_eq_of_lt x.isLt]

theorem to_uint16_object (hostLittle : Bool) (x : uint16_t) :
    to_uint16 (object_value hostLittle (object_bytes hostLittle 2 x.val)) = x := by
  apply Fin.ext
  simp only [to_uint16]
  rw [object_value_object_bytes hostLittle 2 x.val x.isLt, Nat.mod_eq_of_lt x.isLt]

theorem to_uint32_object (hostLittle : Bool) (x : uint32_t) :
    to_uint32 (object_value hostLittle (object_bytes hostLittle 4 x.val)) = x := by
  apply Fin.ext
  simp only [to_uint32]
  rw [object_value_object_bytes hostLittle 4 x.val x.isLt, Nat.mod_eq_of_lt x.isLt]

theorem to_uint64_object (hostLittle : Bool) (x : uint64_t) :
    to_uint64 (object_value hostLittle (object_bytes hostLittle 8 x.val)) = x := by
  apply Fin.ext
  simp only [to_uint64]
  rw [object_value_object_bytes hostLittle 8 x.val x.isLt, Nat.mod_eq_of_lt x.isLt]

theorem load_object (hostLittle : Bool) (mem : List byte) (k n : Nat) :
    load (mem ++ object_bytes hostLittle k n) mem.length k
      = Outcome.value (object_bytes hostLittle k n) := by
  have h := load_append mem (object_bytes hostLittle k n)
  rwa [object_bytes_length] at h

theorem readUint16_writeUint16 (ba : ByteArray) (hostLittle : Bool) (v : uint16_t) :
    (ba.writeUint16 hostLittle v).readUint16 hostLittle ba.size = Outcome.value v := by
  simp only [ByteArray.readUint16, ByteArray.writeUint16, ByteArray.append, ByteArray.size,
    ByteArray.swaps, load_object, Outcome.map, to_uint16_object]
  split <;> simp [bswap16_bswap16]

theorem readUint32_writeUint32 (ba : ByteArray) (hostLittle : Bool) (v : uint32_t) :
    (ba.writeUint32 hostLittle v).readUint32 hostLittle ba.size = Outcome.value v := by
  simp only [ByteArray.readUint32, ByteArray.writeUint32, ByteArray.append, ByteArray.size,
    ByteArray.swaps, load_object, Outcome.map, to_uint32_object]
  split <;> simp [bswap32_bswap32]

theorem readUint64_writeUint64 (ba : ByteArray) (hostLittle : Bool) (v : uint64_t) :
    (ba.writeUint64 hostLittle v).readUint64 hostLittle ba.size = Outcome.value v := by
  simp only [ByteArray.readUint64, ByteArray.writeUint64, ByteArray.append, ByteArray.size,
    ByteArray.swaps, load_object, Outcome.map, to_uint64_object]
  split <;> simp [bswap64_bswap64]

theorem to_int8_bits_int8 (v : int8_t) : to_int8 (bits_int8 v) = v := by
  obtain ⟨x, h1, h2⟩ := v
  apply Subtype.ext
  simp only [to_int8, bits_int8, to_uint8]
  split <;> rename_i h <;> dsimp only at h ⊢ <;> omega

theorem to_int16_bits_int16 (v : int16_t) : to_int16 (bits_int16 v) = v := by
  obtain ⟨x, h1, h2⟩ := v
  apply Subtype.ext
  simp only [to_int16, bits_int16, to_uint16]
  split <;> rename_i h <;> dsimp only at h ⊢ <;> omega

theorem to_int32_bits_int32 (v : int32_t) : to_int32 (bits_int32 v) = v := by
  obtain ⟨x, h1, h2⟩ := v
  apply Subtype.ext
  simp only [to_int32, bits_int32, to_uint32]
  split <;> rename_i h <;> dsimp only at h ⊢ <;> omega

theorem to_int64_bits_int64 (v : int64_t) : to_int64 (bits_int64 v) = v := by
  obtain ⟨x, h1, h2⟩ := v
  apply Subtype.ext
  simp only [to_int64, bits_int64, to_uint64]
  split <;> rename_i h <;> dsimp only at h ⊢ <;> omega

/-! ## Lemmas on the hex codec -/

set_option maxRecDepth 1000000 in
theorem hex_hi_eq (charSigned : Bool) (b : byte) :
    hex_hi charSigned b = hex_digit false (b.val / 16) := by
  revert charSigned b
  decide

set_option maxRecDepth 1000000 in
theorem hex_lo_eq (charSigned : Bool) (b : byte) :
    hex_lo charSigned b = hex_digit false (b.val % 16) := by
  revert charSigned b
  decide

theorem hex_digit_ne_space (lower : Bool) (n : Nat) : hex_digit lower n ≠ SPACE := by
  by_cases h : n < 16
  · revert lower
    have : ∀ m : Fin 16, ∀ lower : Bool, hex_digit lower m.val ≠ SPACE := by decide
    exact this ⟨n, h⟩
  · have hn : 16 ≤ n := Nat.le_of_not_lt h
    cases lower <;> simp [hex_digit, List.getD, SPACE, List.getElem?_eq_none, hn]

set_option maxRecDepth 1000000 in
theorem hex_to_byte_digits (l1 l2 : Bool) (b : byte) :
    hex_to_byte (hex_digit l1 (b.val / 16)) (hex_digit l2 (b.val % 16)) = b := by
  revert l1 l2 b
  decide

theorem appendHex_loop_space (t : List byte) (ba : ByteArray) :
    appendHex_loop (SPACE :: t) ba = appendHex_loop t ba := by
  cases t with
  | nil => simp [appendHex_loop]
  | cons d r => simp [appendHex_loop]

theorem appendHex_loop_spaces (k : Nat) (t : List byte) (ba : ByteArray) :
    appendHex_loop (List.replicate k SPACE ++ t) ba = appendHex_loop t ba := by
  induction k with
  | zero => simp
  | succ k ih => simp [List.replicate_succ, appendHex_loop_space, ih]

theorem appendHex_loop_pair (c d : byte) (t : List byte) (ba : ByteArray)
    (hc : c ≠ SPACE) (hd : d ≠ SPACE) :
    appendHex_loop (c :: d :: t) ba = appendHex_loop t (ba.appendByte (hex_to_byte c d)) := by
  simp [appendHex_loop, hc, hd]

theorem appendHex_loop_items (items : List HexItem) (ba : ByteArray) :
    appendHex_loop (items.map HexItem.text).flatten ba
      = { ba with bytes := ba.bytes ++ items.map HexItem.value } := by
  induction items generalizing ba with
  | nil => simp [appendHex_loop]
  | cons it items ih =>
    simp only [List.map_cons, List.flatten_cons, HexItem.text, List.cons_append, List.nil_append,
      List.append_assoc]
    rw [appendHex_loop_pair _ _ _ _ (hex_digit_ne_space _ _) (hex_digit_ne_space _ _),
      appendHex_loop_spaces, ih, hex_to_byte_digits]
    simp [ByteArray.appendByte]

theorem toHex_loop_eq (charSigned pretty : Bool) (bs acc : List byte) :
    toHex_loop charSigned pretty bs acc
      = acc ++ (bs.map fun b => hex_pair b ++ if pretty then [SPACE] else []).flatten := by
  induction bs generalizing acc with
  | nil => simp [toHex_loop]
  | cons b bs ih =>
    simp only [toHex_loop, ih, hex_hi_eq, hex_lo_eq, hex_pair, List.map_cons, List.flatten_cons]
    cases pretty <;> simp

theorem appendHex_loop_hex_pairs (bs : List byte) (ba : ByteArray) :
    appendHex_loop (bs.map hex_pair).flatten ba = { ba with bytes := ba.bytes ++ bs } := by
  have h := appendHex_loop_items (bs.map fun b => ⟨b, false, false, 0⟩) ba
  have h1 : (bs.map fun b => (⟨b, false, false, 0⟩ : HexItem)).map HexItem.text
      = bs.map hex_pair := by
    simp [HexItem.text, hex_pair]
  have h2 : (bs.map fun b => (⟨b, false, false, 0⟩ : HexItem)).map HexItem.value = bs := by
    simp [List.map_map, Function.comp_def]
  rw [h1, h2] at h
  exact h

theorem toHex_plain (charSigned : Bool) (ba : ByteArray) :
    ba.toHex charSigned false = Outcome.value (ba.bytes.map hex_pair).flatten := by
  simp [ByteArray.toHex, toHex_loop_eq]

theorem hex_pairs_length (bs : List byte) : (bs.map hex_pair).flatten.length = 2 * bs.length := by
  induction bs with
  | nil => rfl
  | cons b bs ih =>
    simp only [List.map_cons, List.flatten_cons, List.length_append, ih]
    simp [hex_pair]
    omega

theorem hex_pairs_getElem (bs : List byte) (i : Nat) (h : i < bs.length) :
    (bs.map hex_pair).flatten[2 * i]? = some (hex_digit false (bs[i].val / 16))
      ∧ (bs.map hex_pair).flatten[2 * i + 1]? = some (hex_digit false (bs[i].val % 16)) := by
  induction bs generalizing i with
  | nil => simp at h
  | cons b bs ih =>
    cases i with
    | zero => simp [hex_pair]
    | succ j =>
      have hj : j < bs.length := by simpa using h
      have e1 : 2 * (j + 1) = (2 * j) + 1 + 1 := by omega
      have := ih j hj
      rw [e1]
      simpa [hex_pair] using this

theorem spaced_pairs_dropLast (bs : List byte) (h : bs ≠ []) :
    (bs.map fun b => hex_pair b ++ [SPACE]).flatten.dropLast
      = List.intercalate [SPACE] (bs.map hex_pair) := by
  induction bs with
  | nil => exact absurd rfl h
  | cons b bs ih =>
    cases bs with
    | nil => simp [List.intercalate, hex_pair]
    | cons c r =>
      have hne : ((c :: r).map fun b => hex_pair b ++ [SPACE]).flatten ≠ [] := by
        simp [hex_pair]
      have ih2 := ih (by simp)
      rw [List.map_cons, List.flatten_cons, List.dropLast_append_of_ne_nil _ hne, ih2]
      simp [List.intercalate, hex_pair]

theorem spaced_pairs_length (bs : List byte) :
    (bs.map fun b => hex_pair b ++ [SPACE]).flatten.length = 3 * bs.length := by
  induction bs with
  | nil => rfl
  | cons b bs ih =>
    simp only [List.map_cons, List.flatten_cons, List.length_append, ih]
    simp [hex_pair]
    omega

theorem toHex_pretty (charSigned : Bool) (ba : ByteArray) (h : ba.bytes ≠ []) :
    ba.toHex charSigned true
      = Outcome.value (List.intercalate [SPACE] (ba.bytes.map hex_pair)) := by
  have hne : (ba.bytes.map fun b => hex_pair b ++ [SPACE]).flatten ≠ [] := by
    cases hb : ba.bytes with
    | nil => exact absurd hb h
    | cons b bs => simp [hex_pair]
  simp [ByteArray.toHex, toHex_loop_eq, pop_back, hne, spaced_pairs_dropLast _ h]

/-! ## Lemmas on byte order -/

theorem toLE_eq_lsb_first (k n : Nat) : toLE k n = lsb_first k n := by
  induction k generalizing n with
  | zero => rfl
  | succ k ih =>
    have h0 : (⟨n % 256, Nat.mod_lt _ (by decide)⟩ : byte) = byte_of n 0 := by
      simp [byte_of, to_uint8]
    have hs : ∀ i, byte_of (n / 256) i = byte_of n (i + 1) := by
      intro i
      simp [byte_of, pow_succ', Nat.div_div_eq_div_mul]
    simp only [toLE, ih, lsb_first, List.range_succ_eq_map, List.map_cons, List.map_map, h0]
    congr 1
    apply List.map_congr_left
    intro i _
    exact hs i

theorem toLE_reverse_eq_msb_first (k n : Nat) : (toLE k n).reverse = msb_first k n := by
  rw [toLE_eq_lsb_first]
  rfl

theorem writeUint16_eq (ba : ByteArray) (hostLittle : Bool) (v : uint16_t) :
    ba.writeUint16 hostLittle v
      = ba.append (match ba.endian with
          | Endian.System => object_bytes hostLittle 2 v.val
          | Endian.Little => lsb_first 2 v.val
          | Endian.Big => msb_first 2 v.val) := by
  have hlt : bswap_bytes 2 v.val % 65536 = bswap_bytes 2 v.val :=
    Nat.mod_eq_of_lt (bswap_bytes_lt 2 v.val)
  rw [← toLE_eq_lsb_first, ← toLE_reverse_eq_msb_first]
  cases he : ba.endian <;> cases hostLittle <;>
    simp [ByteArray.writeUint16, ByteArray.swaps, getSystemEndian, he, object_bytes,
      __builtin_bswap16, to_uint16, hlt, toLE_bswap_bytes]

theorem writeUint32_eq (ba : ByteArray) (hostLittle : Bool) (v : uint32_t) :
    ba.writeUint32 hostLittle v
      = ba.append (match ba.endian with
          | Endian.System => object_bytes hostLittle 4 v.val
          | Endian.Little => lsb_first 4 v.val
          | Endian.Big => msb_first 4 v.val) := by
  have hlt : bswap_bytes 4 v.val % 4294967296 = bswap_bytes 4 v.val :=
    Nat.mod_eq_of_lt (bswap_bytes_lt 4 v.val)
  rw [← toLE_eq_lsb_first, ← toLE_reverse_eq_msb_first]
  cases he : ba.endian <;> cases hostLittle <;>
    simp [ByteArray.writeUint32, ByteArray.swaps, getSystemEndian, he, object_bytes,
      __builtin_bswap32, to_uint32, hlt, toLE_bswap_bytes]

theorem writeUint64_eq (ba : ByteArray) (hostLittle : Bool) (v : uint64_t) :
    ba.writeUint64 hostLittle v
      = ba.append (match ba.endian with
          | Endian.System => object_bytes hostLittle 8 v.val
          | Endian.Little => lsb_first 8 v.val
          | Endian.Big => msb_first 8 v.val) := by
  have hlt : bswap_bytes 8 v.val % 18446744073709551616 = bswap_bytes 8 v.val :=
    Nat.mod_eq_of_lt (bswap_bytes_lt 8 v.val)
  rw [← toLE_eq_lsb_first, ← toLE_reverse_eq_msb_first]
  cases he : ba.endian <;> cases hostLittle <;>
    simp [ByteArray.writeUint64, ByteArray.swaps, getSystemEndian, he, object_bytes,
      __builtin_bswap64, to_uint64, hlt, toLE_bswap_bytes]

theorem object_bytes_eq (hostLittle : Bool) (k n : Nat) :
    object_bytes hostLittle k n = if hostLittle then lsb_first k n else msb_first k n := by
  cases hostLittle
  · simp [object_bytes, toLE_reverse_eq_msb_first]
  · simp [object_bytes, toLE_eq_lsb_first]

/-! ## Claims -/

/-- C1: on the buffer `[A,B,C,D]`, `writeBytes([X,Y], 2, 1)` does not yield
`[A,X,Y,B,C,D]`: its first `memcpy` copies the three-byte suffix from index 1 to
index 3, two regions that overlap, which is undefined behaviour. -/
theorem C1_writeBytes_overlap :
    ByteArray.writeBytes ⟨[0x41, 0x42, 0x43, 0x44], Endian.System⟩ [0x58, 0x59] 1
        = Outcome.undefined
      ∧ memcpy_within [0x41, 0x42, 0x43, 0x44, 0, 0] 3 1 3 = Outcome.undefined
      ∧ ByteArray.writeBytes ⟨[0x41, 0x42, 0x43, 0x44], Endian.System⟩ [0x58, 0x59] 1
        ≠ Outcome.value ⟨[0x41, 0x58, 0x59, 0x42, 0x43, 0x44], Endian.System⟩ := by
  decide

/-- C2: for every integer kind and `bool`, every endian mode and either host
byte order, `read<T>(0)` after `clear(); write<T>(v)` returns `v`. -/
theorem C2_roundtrip (hostLittle : Bool) (e : Endian) (ba : ByteArray) :
    (∀ v : uint8_t, ((ba.setEndian e).clear.writeUint8 v).readUint8 0 = Outcome.value v)
    ∧ (∀ v : int8_t, ((ba.setEndian e).clear.writeInt8 v).readInt8 0 = Outcome.value v)
    ∧ (∀ v : uint16_t, ((ba.setEndian e).clear.writeUint16 hostLittle v).readUint16 hostLittle 0
        = Outcome.value v)
    ∧ (∀ v : int16_t, ((ba.setEndian e).clear.writeInt16 hostLittle v).readInt16 hostLittle 0
        = Outcome.value v)
    ∧ (∀ v : uint32_t, ((ba.setEndian e).clear.writeUint32 hostLittle v).readUint32 hostLittle 0
        = Outcome.value v)
    ∧ (∀ v : int32_t, ((ba.setEndian e).clear.writeInt32 hostLittle v).readInt32 hostLittle 0
        = Outcome.value v)
    ∧ (∀ v : uint64_t, ((ba.setEndian e).clear.writeUint64 hostLittle v).readUint64 hostLittle 0
        = Outcome.value v)
    ∧ (∀ v : int64_t, ((ba.setEndian e).clear.writeInt64 hostLittle v).readInt64 hostLittle 0
        = Outcome.value v)
    ∧ (∀ v : Bool, ((ba.setEndian e).clear.writeBool v).readBool 0 = Outcome.value v) := by
  have h16 := readUint16_writeUint16 (ba.setEndian e).clear hostLittle
  have h32 := readUint32_writeUint32 (ba.setEndian e).clear hostLittle
  have h64 := readUint64_writeUint64 (ba.setEndian e).clear hostLittle
  have hs : (ba.setEndian e).clear.size = 0 := rfl
  rw [hs] at h16 h32 h64
  refine ⟨?_, ?_, h16, ?_, h32, ?_, h64, ?_, ?_⟩
  · intro v
    exact load_byte_append [] v []
  · intro v
    have h := load_byte_append [] (bits_int8 v) []
    simp only [List.nil_append, List.length_nil] at h
    simp [ByteArray.readInt8, ByteArray.writeInt8, ByteArray.append, ByteArray.clear,
      ByteArray.setEndian, h, Outcome.map, to_int8_bits_int8]
  · intro v
    simp [ByteArray.readInt16, ByteArray.writeInt16, h16, Outcome.map, to_int16_bits_int16]
  · intro v
    simp [ByteArray.readInt32, ByteArray.writeInt32, h32, Outcome.map, to_int32_bits_int32]
  · intro v
    simp [ByteArray.readInt64, ByteArray.writeInt64, h64, Outcome.map, to_int64_bits_int64]
  · intro v
    cases v <;>
      simp [ByteArray.readBool, ByteArray.writeBool, ByteArray.append, ByteArray.clear,
        ByteArray.setEndian, load_byte, Outcome.bind]

/-- C3: for every byte sequence `b`, decoding the text `toHex(pretty=false)`
of a buffer holding `b` with the pointer/length `appendHex` on an empty buffer
gives back exactly `b`; but `assignHex` and `fromHex` do not deliver that
result on any buffer or text: each call runs into a function body that ends
without its `return` statement, which is undefined behaviour (so for the text
`"AB CD"`). -/
theorem C3_hex_roundtrip (charSigned : Bool) (e : Endian) (ba target : ByteArray)
    (t : List byte) :
    (ba.toHex charSigned false).map (fun t => (ByteArray.appendHex ⟨[], e⟩ t).bytes)
        = Outcome.value ba.bytes
      ∧ target.appendHex_string t = Outcome.undefined
      ∧ target.assignHex t = Outcome.undefined
      ∧ target.fromHex t = Outcome.undefined
      ∧ (ba.toHex charSigned false).bind (fun t => target.assignHex t)
        ≠ Outcome.value { target with bytes := ba.bytes }
      ∧ (ba.toHex charSigned false).bind (fun t => target.fromHex t)
        ≠ Outcome.value { target with bytes := ba.bytes }
      ∧ ByteArray.fromHex ⟨[], Endian.System⟩ [0x41, 0x42, 0x20, 0x43, 0x44]
        = Outcome.undefined := by
  have h1 : ∀ (x : ByteArray) (u : List byte), x.assignHex u = Outcome.undefined :=
    fun _ _ => rfl
  have h2 : ∀ (x : ByteArray) (u : List byte), x.fromHex u = Outcome.undefined :=
    fun _ _ => rfl
  refine ⟨?_, rfl, h1 _ _, h2 _ _, ?_, ?_, h2 _ _⟩
  · simp [toHex_plain, Outcome.map, ByteArray.appendHex, appendHex_loop_hex_pairs]
  · simp [toHex_plain, Outcome.bind, h1]
  · simp [toHex_plain, Outcome.bind, h2]

/-- C4: a text made of the two hex digits of each byte of `b` in order, with
any number of spaces before the first pair, between pairs and after the last
pair (none inside a pair), is decoded by `appendHex` on an empty buffer to
exactly `b`; in particular `"AB CD"` gives `[0xAB, 0xCD]`. -/
theorem C4_hex_whitespace (lead : Nat) (items : List HexItem) (e : Endian) :
    (ByteArray.appendHex ⟨[], e⟩ (spaced_text lead items)).bytes = items.map HexItem.value
      ∧ spaced_text 0 [⟨0xAB, false, false, 1⟩, ⟨0xCD, false, false, 0⟩]
        = [0x41, 0x42, 0x20, 0x43, 0x44]
      ∧ (ByteArray.appendHex ⟨[], e⟩ [0x41, 0x42, 0x20, 0x43, 0x44]).bytes = [0xAB, 0xCD] := by
  refine ⟨?_, by decide, ?_⟩
  · simp [ByteArray.appendHex, spaced_text, appendHex_loop_spaces, appendHex_loop_items]
  · cases e <;> decide

/-- C5: `toHex(pretty=false)` of `n` bytes is the string of length `2n` whose
characters `2i` and `2i+1` are the uppercase hex digits of the high and the low
nibble of byte `i`; for `n ≥ 1`, `toHex(pretty=true)` is the same pairs joined
by one space, without a leading or trailing space, of length `3n - 1`. -/
theorem C5_toHex_format (charSigned : Bool) (ba : ByteArray) :
    (∃ t, ba.toHex charSigned false = Outcome.value t
        ∧ t = (ba.bytes.map hex_pair).flatten
        ∧ t.length = 2 * ba.size
        ∧ ∀ (i : Nat) (h : i < ba.bytes.length),
            t[2 * i]? = some (hex_digit false (ba.bytes[i].val / 16))
            ∧ t[2 * i + 1]? = some (hex_digit false (ba.bytes[i].val % 16)))
      ∧ (1 ≤ ba.size →
          ∃ t, ba.toHex charSigned true = Outcome.value t
            ∧ t = List.intercalate [SPACE] (ba.bytes.map hex_pair)
            ∧ t.length = 3 * ba.size - 1) := by
  constructor
  · exact ⟨_, toHex_plain charSigned ba, rfl, hex_pairs_length ba.bytes,
      hex_pairs_getElem ba.bytes⟩
  · intro hn
    have hne : ba.bytes ≠ [] := by
      intro h0
      simp [ByteArray.size, h0] at hn
    refine ⟨_, toHex_pretty charSigned ba hne, rfl, ?_⟩
    rw [← spaced_pairs_dropLast _ hne, List.length_dropLast, spaced_pairs_length]
    rfl

/-- C5, witness: `toHex([0x0A, 0xFF], pretty=true)` is `"0A FF"`. -/
theorem C5_toHex_format_witness :
    1 ≤ ByteArray.size ⟨[0x0A, 0xFF], Endian.System⟩
      ∧ ByteArray.toHex ⟨[0x0A, 0xFF], Endian.System⟩ true true
        = Outcome.value [0x30, 0x41, 0x20, 0x46, 0x46] := by
  refine ⟨by decide, ?_⟩
  obtain ⟨t, h1, h2, _⟩ := (C5_toHex_format true ⟨[0x0A, 0xFF], Endian.System⟩).2 (by decide)
  rw [h1, h2]
  decide

/-- C6: on the empty buffer `toHex(pretty=true)` does not return the empty
string: it calls `pop_back()` on the empty result, which is undefined
behaviour; `toHex(pretty=false)` returns the empty string. -/
theorem C6_toHex_empty (charSigned : Bool) (e : Endian) :
    ByteArray.toHex ⟨[], e⟩ charSigned true = Outcome.undefined
      ∧ ByteArray.toHex ⟨[], e⟩ charSigned true ≠ Outcome.value []
      ∧ ByteArray.toHex ⟨[], e⟩ charSigned false = Outcome.value [] := by
  cases charSigned <;> cases e <;> decide

/-- C7: for the widths 16, 32 and 64 and either host byte order, `writeUintN(v)`
appends the `N/8` bytes of `v` most significant byte first under `Big`, least
significant byte first under `Little`, and in the host's native order, with no
swap, under `System`; `writeUint32(0x01020304)` under `Big` appends
`[0x01, 0x02, 0x03, 0x04]`. -/
theorem C7_write_byte_order (hostLittle : Bool) (ba : ByteArray)
    (v16 : uint16_t) (v32 : uint32_t) (v64 : uint64_t) :
    (((ba.setEndian Endian.Big).writeUint16 hostLittle v16).bytes
        = ba.bytes ++ msb_first 2 v16.val
      ∧ ((ba.setEndian Endian.Little).writeUint16 hostLittle v16).bytes
        = ba.bytes ++ lsb_first 2 v16.val
      ∧ ((ba.setEndian Endian.System).writeUint16 hostLittle v16).bytes
        = ba.bytes ++ object_bytes hostLittle 2 v16.val)
    ∧ (((ba.setEndian Endian.Big).writeUint32 hostLittle v32).bytes
        = ba.bytes ++ msb_first 4 v32.val
      ∧ ((ba.setEndian Endian.Little).writeUint32 hostLittle v32).bytes
        = ba.bytes ++ lsb_first 4 v32.val
      ∧ ((ba.setEndian Endian.System).writeUint32 hostLittle v32).bytes
        = ba.bytes ++ object_bytes hostLittle 4 v32.val)
    ∧ (((ba.setEndian Endian.Big).writeUint64 hostLittle v64).bytes
        = ba.bytes ++ msb_first 8 v64.val
      ∧ ((ba.setEndian Endian.Little).writeUint64 hostLittle v64).bytes
        = ba.bytes ++ lsb_first 8 v64.val
      ∧ ((ba.setEndian Endian.System).writeUint64 hostLittle v64).bytes
        = ba.bytes ++ object_bytes hostLittle 8 v64.val)
    ∧ (∀ k n, object_bytes hostLittle k n
        = if hostLittle then lsb_first k n else msb_first k n)
    ∧ ((ByteArray.mk [] Endian.Big).writeUint32 hostLittle 0x01020304).bytes
        = [0x01, 0x02, 0x03, 0x04] := by
  refine ⟨⟨?_, ?_, ?_⟩, ⟨?_, ?_, ?_⟩, ⟨?_, ?_, ?_⟩, object_bytes_eq hostLittle, ?_⟩
  · rw [writeUint16_eq]; rfl
  · rw [writeUint16_eq]; rfl
  · rw [writeUint16_eq]; rfl
  · rw [writeUint32_eq]; rfl
  · rw [writeUint32_eq]; rfl
  · rw [writeUint32_eq]; rfl
  · rw [writeUint64_eq]; rfl
  · rw [writeUint64_eq]; rfl
  · rw [writeUint64_eq]; rfl
  · cases hostLittle <;> decide

/-- C8: for the widths 16, 32 and 64, every value and either host byte order,
the bytes that `writeUintN(v)` appends to an empty buffer under `Little`,
reversed, are the bytes it appends to an empty buffer under `Big`. -/
theorem C8_endian_symmetry (hostLittle : Bool)
    (v16 : uint16_t) (v32 : uint32_t) (v64 : uint64_t) :
    ((ByteArray.mk [] Endian.Little).writeUint16 hostLittle v16).bytes.reverse
        = ((ByteArray.mk [] Endian.Big).writeUint16 hostLittle v16).bytes
      ∧ ((ByteArray.mk [] Endian.Little).writeUint32 hostLittle v32).bytes.reverse
        = ((ByteArray.mk [] Endian.Big).writeUint32 hostLittle v32).bytes
      ∧ ((ByteArray.mk [] Endian.Little).writeUint64 hostLittle v64).bytes.reverse
        = ((ByteArray.mk [] Endian.Big).writeUint64 hostLittle v64).bytes := by
  simp [writeUint16_eq, writeUint32_eq, writeUint64_eq, ByteArray.append, msb_first, lsb_first]

/-- C9, as stated, fails: `readUint16(0)` on a one-byte buffer reports no
error; the unchecked two-byte access past the stored byte is undefined
behaviour. -/
theorem C9_read_unchecked_counterexample :
    ByteArray.readUint16 ⟨[0x01], Endian.System⟩ true 0 = Outcome.undefined
      ∧ ByteArray.readUint16 ⟨[0x01], Endian.System⟩ true 0 ≠ Outcome.error := by
  decide

/-- C9, amended: for every scalar kind of width `w`, every buffer of length `n`
and every offset `o` with `o + w > n`, `read<T>(o)` makes no bounds check and
reports no error: its access past the stored bytes is undefined behaviour. -/
theorem C9_read_out_of_bounds (hostLittle : Bool) (ba : ByteArray) (o : Nat) :
    (o + 1 > ba.size →
        ba.readByte o = Outcome.undefined ∧ ba.readBool o = Outcome.undefined
        ∧ ba.readUint8 o = Outcome.undefined ∧ ba.readInt8 o = Outcome.undefined)
      ∧ (o + 2 > ba.size →
        ba.readUint16 hostLittle o = Outcome.undefined
        ∧ ba.readInt16 hostLittle o = Outcome.undefined)
      ∧ (o + 4 > ba.size →
        ba.readUint32 hostLittle o = Outcome.undefined
        ∧ ba.readInt32 hostLittle o = Outcome.undefined
        ∧ ba.readFloat hostLittle o = Outcome.undefined)
      ∧ (o + 8 > ba.size →
        ba.readUint64 hostLittle o = Outcome.undefined
        ∧ ba.readInt64 hostLittle o = Outcome.undefined
        ∧ ba.readDouble hostLittle o = Outcome.undefined) := by
  refine ⟨?_, ?_, ?_, ?_⟩
  · intro h
    have hlt : ¬ o < ba.bytes.length := by
      simp only [ByteArray.size] at h
      omega
    simp [ByteArray.readByte, ByteArray.readBool, ByteArray.readUint8, ByteArray.readInt8,
      load_byte, hlt, Outcome.bind, Outcome.map]
  · intro h
    have hlt : ¬ o + 2 ≤ ba.bytes.length := by
      simp only [ByteArray.size] at h
      omega
    simp [ByteArray.readUint16, ByteArray.readInt16, load, hlt, Outcome.map]
  · intro h
    have hlt : ¬ o + 4 ≤ ba.bytes.length := by
      simp only [ByteArray.size] at h
      omega
    simp [ByteArray.readUint32, ByteArray.readInt32, ByteArray.readFloat, load, hlt, Outcome.map]
  · intro h
    have hlt : ¬ o + 8 ≤ ba.bytes.length := by
      simp only [ByteArray.size] at h
      omega
    simp [ByteArray.readUint64, ByteArray.readInt64, ByteArray.readDouble, load, hlt,
      Outcome.map]

/-- C9, amended, witness: on the one-byte buffer `[0x01]` the reads of width 2
at offset 0 are undefined. -/
theorem C9_read_out_of_bounds_witness :
    0 + 2 > ByteArray.size ⟨[0x01], Endian.Big⟩
      ∧ ByteArray.readUint16 ⟨[0x01], Endian.Big⟩ true 0 = Outcome.undefined
      ∧ ByteArray.readInt16 ⟨[0x01], Endian.Big⟩ true 0 = Outcome.undefined :=
  ⟨by decide, (C9_read_out_of_bounds true ⟨[0x01], Endian.Big⟩ 0).2.1 (by decide)⟩

/-- C10: for the widths 16, 32 and 64 and every signed value `v`,
`writeIntN(v)` appends what `writeUintN(v mod 2^N)` appends, and `readIntN(o)`
is the signed reading of `readUintN(o)` (`u` below `2^(N-1)`, else `u - 2^N`),
under every endian mode; `writeInt16(-1)` appends `[0xFF, 0xFF]`. -/
theorem C10_signed_twos_complement (hostLittle : Bool) (ba : ByteArray) (o : Nat)
    (v16 : int16_t) (v32 : int32_t) (v64 : int64_t) :
    (ba.writeInt16 hostLittle v16 = ba.writeUint16 hostLittle (to_uint16 (v16.val % 2 ^ 16).toNat)
      ∧ (ba.readInt16 hostLittle o).map Subtype.val
        = (ba.readUint16 hostLittle o).map (fun u => signed_of 16 u.val))
    ∧ (ba.writeInt32 hostLittle v32 = ba.writeUint32 hostLittle (to_uint32 (v32.val % 2 ^ 32).toNat)
      ∧ (ba.readInt32 hostLittle o).map Subtype.val
        = (ba.readUint32 hostLittle o).map (fun u => signed_of 32 u.val))
    ∧ (ba.writeInt64 hostLittle v64 = ba.writeUint64 hostLittle (to_uint64 (v64.val % 2 ^ 64).toNat)
      ∧ (ba.readInt64 hostLittle o).map Subtype.val
        = (ba.readUint64 hostLittle o).map (fun u => signed_of 64 u.val))
    ∧ (ba.writeInt16 hostLittle ⟨-1, by decide⟩).bytes = ba.bytes ++ [0xFF, 0xFF] := by
  have m16 : ∀ x : Outcome uint16_t, (x.map to_int16).map Subtype.val
      = x.map (fun u => signed_of 16 u.val) := by
    intro x
    cases x <;> simp only [Outcome.map, to_int16, signed_of]
    split <;> simp_all
  have m32 : ∀ x : Outcome uint32_t, (x.map to_int32).map Subtype.val
      = x.map (fun u => signed_of 32 u.val) := by
    intro x
    cases x <;> simp only [Outcome.map, to_int32, signed_of]
    split <;> simp_all
  have m64 : ∀ x : Outcome uint64_t, (x.map to_int64).map Subtype.val
      = x.map (fun u => signed_of 64 u.val) := by
    intro x
    cases x <;> simp only [Outcome.map, to_int64, signed_of]
    split <;> simp_all
  refine ⟨⟨rfl, m16 _⟩, ⟨rfl, m32 _⟩, ⟨rfl, m64 _⟩, ?_⟩
  rw [ByteArray.writeInt16, writeUint16_eq]
  cases he : ba.endian <;> cases hostLittle <;> simp [ByteArray.append] <;> decide

/-! ## Lemmas on frames -/

theorem appended_append (ba : ByteArray) (v : List byte) :
    appended ba (ba.append v) v.length := by
  simp [appended, ByteArray.append, ByteArray.size]

theorem appended_writeUint16 (ba : ByteArray) (hostLittle : Bool) (v : uint16_t) :
    appended ba (ba.writeUint16 hostLittle v) 2 := by
  have h := appended_append ba
    (object_bytes hostLittle 2 (if ba.swaps hostLittle then __builtin_bswap16 v else v).val)
  rwa [object_bytes_length] at h

theorem appended_writeUint32 (ba : ByteArray) (hostLittle : Bool) (v : uint32_t) :
    appended ba (ba.writeUint32 hostLittle v) 4 := by
  have h := appended_append ba
    (object_bytes hostLittle 4 (if ba.swaps hostLittle then __builtin_bswap32 v else v).val)
  rwa [object_bytes_length] at h

theorem appended_writeUint64 (ba : ByteArray) (hostLittle : Bool) (v : uint64_t) :
    appended ba (ba.writeUint64 hostLittle v) 8 := by
  have h := appended_append ba
    (object_bytes hostLittle 8 (if ba.swaps hostLittle then __builtin_bswap64 v else v).val)
  rwa [object_bytes_length] at h

theorem load_byte_append_one (ba : ByteArray) (b : byte) :
    load_byte (ba.append [b]).bytes ba.size = Outcome.value b :=
  load_byte_append ba.bytes b []

/-! ## Claims, continued -/

/-- C11: `writeFloat` of the value with bits `p` appends what `writeUint32(p)`
appends, `readFloat(o)` is the value whose bits are `readUint32(o)`, and
`readFloat(0)` after `clear(); writeFloat(v)` has the bits of `v`, under every
endian mode; likewise for `writeDouble`/`readDouble` with the 64-bit
functions. -/
theorem C11_float_bit_pattern (hostLittle : Bool) (e : Endian) (ba : ByteArray) (o : Nat)
    (p : uint32_t) (q : uint64_t) :
    (ba.writeFloat hostLittle ⟨p⟩ = ba.writeUint32 hostLittle p
      ∧ (ba.readFloat hostLittle o).map float.bits = ba.readUint32 hostLittle o
      ∧ ((ba.setEndian e).clear.writeFloat hostLittle ⟨p⟩).readFloat hostLittle 0
        = Outcome.value ⟨p⟩)
    ∧ (ba.writeDouble hostLittle ⟨q⟩ = ba.writeUint64 hostLittle q
      ∧ (ba.readDouble hostLittle o).map double.bits = ba.readUint64 hostLittle o
      ∧ ((ba.setEndian e).clear.writeDouble hostLittle ⟨q⟩).readDouble hostLittle 0
        = Outcome.value ⟨q⟩) := by
  have h32 := readUint32_writeUint32 (ba.setEndian e).clear hostLittle p
  have h64 := readUint64_writeUint64 (ba.setEndian e).clear hostLittle q
  have hs : (ba.setEndian e).clear.size = 0 := rfl
  rw [hs] at h32 h64
  refine ⟨⟨rfl, ?_, ?_⟩, ⟨rfl, ?_, ?_⟩⟩
  · simp only [ByteArray.readFloat]
    cases ba.readUint32 hostLittle o <;> rfl
  · simp only [ByteArray.readFloat, ByteArray.writeFloat, h32, Outcome.map]
  · simp only [ByteArray.readDouble]
    cases ba.readUint64 hostLittle o <;> rfl
  · simp only [ByteArray.readDouble, ByteArray.writeDouble, h64, Outcome.map]

/-- C12: for every buffer of length `n`, every integer kind of width `w` (and
`bool`), every value `v` and every endian mode, `write<T>(v)` leaves the first
`n` bytes and the endian field unchanged, makes the length `n + w`, and
`read<T>(n)` then returns `v`; `setEndian` changes the endian field only. -/
theorem C12_write_frame (hostLittle : Bool) (ba : ByteArray) (e : Endian) :
    (∀ v : uint8_t, appended ba (ba.writeUint8 v) 1
        ∧ (ba.writeUint8 v).readUint8 ba.size = Outcome.value v)
    ∧ (∀ v : int8_t, appended ba (ba.writeInt8 v) 1
        ∧ (ba.writeInt8 v).readInt8 ba.size = Outcome.value v)
    ∧ (∀ v : uint16_t, appended ba (ba.writeUint16 hostLittle v) 2
        ∧ (ba.writeUint16 hostLittle v).readUint16 hostLittle ba.size = Outcome.value v)
    ∧ (∀ v : int16_t, appended ba (ba.writeInt16 hostLittle v) 2
        ∧ (ba.writeInt16 hostLittle v).readInt16 hostLittle ba.size = Outcome.value v)
    ∧ (∀ v : uint32_t, appended ba (ba.writeUint32 hostLittle v) 4
        ∧ (ba.writeUint32 hostLittle v).readUint32 hostLittle ba.size = Outcome.value v)
    ∧ (∀ v : int32_t, appended ba (ba.writeInt32 hostLittle v) 4
        ∧ (ba.writeInt32 hostLittle v).readInt32 hostLittle ba.size = Outcome.value v)
    ∧ (∀ v : uint64_t, appended ba (ba.writeUint64 hostLittle v) 8
        ∧ (ba.writeUint64 hostLittle v).readUint64 hostLittle ba.size = Outcome.value v)
    ∧ (∀ v : int64_t, appended ba (ba.writeInt64 hostLittle v) 8
        ∧ (ba.writeInt64 hostLittle v).readInt64 hostLittle ba.size = Outcome.value v)
    ∧ (∀ v : Bool, appended ba (ba.writeBool v) 1
        ∧ (ba.writeBool v).readBool ba.size = Outcome.value v)
    ∧ ((ba.setEndian e).bytes = ba.bytes ∧ (ba.setEndian e).endian = e) := by
  refine ⟨?_, ?_, ?_, ?_, ?_, ?_, ?_, ?_, ?_, rfl, rfl⟩
  · intro v
    exact ⟨appended_append ba [v], load_byte_append_one ba v⟩
  · intro v
    refine ⟨appended_append ba [bits_int8 v], ?_⟩
    simp only [ByteArray.readInt8, ByteArray.writeInt8, load_byte_append_one, Outcome.map,
      to_int8_bits_int8]
  · intro v
    exact ⟨appended_writeUint16 ba hostLittle v, readUint16_writeUint16 ba hostLittle v⟩
  · intro v
    refine ⟨appended_writeUint16 ba hostLittle _, ?_⟩
    simp only [ByteArray.readInt16, ByteArray.writeInt16, readUint16_writeUint16, Outcome.map,
      to_int16_bits_int16]
  · intro v
    exact ⟨appended_writeUint32 ba hostLittle v, readUint32_writeUint32 ba hostLittle v⟩
  · intro v
    refine ⟨appended_writeUint32 ba hostLittle _, ?_⟩
    simp only [ByteArray.readInt32, ByteArray.writeInt32, readUint32_writeUint32, Outcome.map,
      to_int32_bits_int32]
  · intro v
    exact ⟨appended_writeUint64 ba hostLittle v, readUint64_writeUint64 ba hostLittle v⟩
  · intro v
    refine ⟨appended_writeUint64 ba hostLittle _, ?_⟩
    simp only [ByteArray.readInt64, ByteArray.writeInt64, readUint64_writeUint64, Outcome.map,
      to_int64_bits_int64]
  · intro v
    refine ⟨appended_append ba _, ?_⟩
    simp only [ByteArray.readBool, ByteArray.writeBool, load_byte_append_one, Outcome.bind]
    cases v <;> simp

/-- C13: from any prior state, `assign(x)` leaves the buffer holding exactly
the bytes of `x` (and its endian field as it was), so `assign(x); assign(x)`
leaves the buffer identical to a single `assign(x)`; for a byte sequence or
text `x`, and for another buffer `x`. -/
theorem C13_assign_idempotent (ba x : ByteArray) (v : List byte) :
    ((ba.assign v).bytes = v ∧ (ba.assign v).endian = ba.endian
      ∧ (ba.assign v).assign v = ba.assign v)
    ∧ ((ba.assignArray x).bytes = x.bytes ∧ (ba.assignArray x).endian = ba.endian
      ∧ (ba.assignArray x).assignArray x = ba.assignArray x) := by
  simp [ByteArray.assign, ByteArray.assignArray, ByteArray.clear, ByteArray.append,
    ByteArray.appendArray]

/-- C14: with `offset + len <= length(b)`, `readBytes(len, offset)` returns a
buffer whose bytes are exactly `b[offset .. offset+len)`, and leaves the bytes
and the endian field of the source as they were. -/
theorem C14_readBytes (ba : ByteArray) (len offset : Nat) (h : offset + len ≤ ba.size) :
    ∃ r, ba.readBytes len offset = Outcome.value (r, ba)
      ∧ r.bytes = (ba.bytes.drop offset).take len
      ∧ r.bytes.length = len
      ∧ ∀ (i : Nat), i < len → r.bytes[i]? = ba.bytes[offset + i]? := by
  have hl : offset + len ≤ ba.bytes.length := h
  refine ⟨ByteArray.ofBytes ((ba.bytes.drop offset).take len), ?_, ?_, ?_, ?_⟩
  · simp [ByteArray.readBytes, load, hl, Outcome.map]
  · simp [ByteArray.ofBytes, ByteArray.append]
  · simp only [ByteArray.ofBytes, ByteArray.append, List.nil_append, List.length_take,
      List.length_drop]
    omega
  · intro i hi
    simp only [ByteArray.ofBytes, ByteArray.append, List.nil_append]
    rw [List.getElem?_take_of_lt hi, List.getElem?_drop]

/-- C14, witness: `readBytes(2, 1)` on `[1,2,3,4]` under `Big` returns `[2,3]`
and leaves the source as it was. -/
theorem C14_readBytes_witness :
    1 + 2 ≤ ByteArray.size ⟨[1, 2, 3, 4], Endian.Big⟩
      ∧ ∃ r, ByteArray.readBytes ⟨[1, 2, 3, 4], Endian.Big⟩ 2 1
            = Outcome.value (r, ⟨[1, 2, 3, 4], Endian.Big⟩)
          ∧ r.bytes = [2, 3] := by
  refine ⟨by decide, ?_⟩
  obtain ⟨r, h1, h2, _⟩ := C14_readBytes ⟨[1, 2, 3, 4], Endian.Big⟩ 2 1 (by decide)
  exact ⟨r, h1, by rw [h2]; decide⟩

/-! ## Further lemmas on hex decoding -/

set_option maxRecDepth 1000000 in
theorem hex_to_unit_eq_hex_value (c : byte) : hex_to_unit c = hex_value c := by
  revert c
  decide

set_option maxRecDepth 1000000 in
theorem to_upper_eq_space (c : byte) : to_upper c = SPACE ↔ c = SPACE := by
  revert c
  decide

set_option maxRecDepth 1000000 in
theorem hex_to_unit_to_upper (c : byte) : hex_to_unit (to_upper c) = hex_to_unit c := by
  revert c
  decide

set_option maxRecDepth 1000000 in
theorem to_lower_hex_pair (b : byte) :
    (hex_pair b).map to_lower
      = [hex_digit true (b.val / 16), hex_digit true (b.val % 16)] := by
  revert b
  decide

theorem hex_to_byte_to_upper (c d : byte) :
    hex_to_byte (to_upper c) (to_upper d) = hex_to_byte c d := by
  simp only [hex_to_byte, hex_to_unit_to_upper]

theorem appendHex_loop_digit_space (c : byte) (t : List byte) (ba : ByteArray)
    (hc : c ≠ SPACE) :
    appendHex_loop (c :: SPACE :: t) ba = appendHex_loop t ba := by
  rw [← appendHex_loop_space t ba]
  simp [appendHex_loop, hc]

theorem appendHex_loop_single (c : byte) (ba : ByteArray) : appendHex_loop [c] ba = ba := by
  simp [appendHex_loop]

theorem appendHex_loop_even (n : Nat) (s : List byte) (ba : ByteArray)
    (hs : s.length = 2 * n) (hns : ∀ x ∈ s, x ≠ SPACE) :
    ∃ out : List byte, out.length = n
      ∧ ∀ t : List byte, appendHex_loop (s ++ t) ba = appendHex_loop t (ba.append out) := by
  induction n generalizing s ba with
  | zero =>
    have h0 : s = [] := List.length_eq_zero.mp (by simpa using hs)
    exact ⟨[], rfl, fun t => by simp [h0, ByteArray.append]⟩
  | succ n ih =>
    match s, hs, hns with
    | [], hs, _ => simp at hs
    | [_], hs, _ => simp at hs; omega
    | c :: d :: r, hs, hns =>
      have hc : c ≠ SPACE := hns c (by simp)
      have hd : d ≠ SPACE := hns d (by simp)
      have hr : r.length = 2 * n := by simp at hs; omega
      obtain ⟨out, hlen, hout⟩ := ih r (ba.appendByte (hex_to_byte c d)) hr
        (fun x hx => hns x (by simp [hx]))
      refine ⟨hex_to_byte c d :: out, by simp [hlen], fun t => ?_⟩
      rw [List.cons_append, List.cons_append, appendHex_loop_pair c d _ ba hc hd, hout t]
      simp [ByteArray.append, ByteArray.appendByte]

theorem appendHex_loop_upper (n : Nat) (s : List byte) (ba : ByteArray) (hn : s.length ≤ n) :
    appendHex_loop (s.map to_upper) ba = appendHex_loop s ba := by
  induction n generalizing s ba with
  | zero =>
    have h0 : s = [] := List.length_eq_zero.mp (by omega)
    simp [h0]
  | succ n ih =>
    match s, hn with
    | [], _ => rfl
    | [c], _ => simp [appendHex_loop_single]
    | c :: d :: r, hn =>
      have hlen1 : (d :: r).length ≤ n := by simp at hn ⊢; omega
      have hlen2 : r.length ≤ n := by simp at hn; omega
      by_cases hc : c = SPACE
      · have hu : to_upper c = SPACE := (to_upper_eq_space c).mpr hc
        rw [List.map_cons, hu, appendHex_loop_space, hc, appendHex_loop_space]
        exact ih (d :: r) ba hlen1
      · have hcu : to_upper c ≠ SPACE := fun h => hc ((to_upper_eq_space c).mp h)
        by_cases hd : d = SPACE
        · have hu : to_upper d = SPACE := (to_upper_eq_space d).mpr hd
          rw [List.map_cons, List.map_cons, hu, appendHex_loop_digit_space _ _ _ hcu, hd,
            appendHex_loop_digit_space _ _ _ hc]
          exact ih r ba hlen2
        · have hdu : to_upper d ≠ SPACE := fun h => hd ((to_upper_eq_space d).mp h)
          rw [List.map_cons, List.map_cons, appendHex_loop_pair _ _ _ _ hcu hdu,
            appendHex_loop_pair _ _ _ _ hc hd, hex_to_byte_to_upper]
          exact ih r _ hlen2

theorem appendHex_loop_lower_pairs (bs : List byte) (ba : ByteArray) :
    appendHex_loop ((bs.map hex_pair).flatten.map to_lower) ba
      = { ba with bytes := ba.bytes ++ bs } := by
  have h := appendHex_loop_items (bs.map fun b => ⟨b, true, true, 0⟩) ba
  have h1 : (bs.map fun b => (⟨b, true, true, 0⟩ : HexItem)).map HexItem.text
      = bs.map fun b => (hex_pair b).map to_lower := by
    simp [HexItem.text, to_lower_hex_pair]
  have h2 : (bs.map fun b => (⟨b, true, true, 0⟩ : HexItem)).map HexItem.value = bs := by
    simp [List.map_map, Function.comp_def]
  have h3 : (bs.map hex_pair).flatten.map to_lower
      = (bs.map fun b => (hex_pair b).map to_lower).flatten := by
    simp [List.map_flatten, List.map_map, Function.comp_def]
  rw [h1, h2] at h
  rw [h3]
  exact h

/-- C15: hex decoding never fails on a non-hex character: for non-space
characters `c1`, `c2`, `appendHex` of the text `c1 c2` appends the single byte
`(16 * u(c1) + u(c2)) mod 256`, where `u` is the value of a hex digit (either
letter case) and 0 for every other character. -/
theorem C15_hex_lenient (ba : ByteArray) (c1 c2 : byte) (h1 : c1 ≠ SPACE) (h2 : c2 ≠ SPACE) :
    ba.appendHex [c1, c2] = ba.append [to_uint8 (16 * hex_value c1 + hex_value c2)] := by
  have hb : hex_to_byte c1 c2 = to_uint8 (16 * hex_value c1 + hex_value c2) := by
    simp only [hex_to_byte, to_uint8, hex_to_unit_eq_hex_value, Nat.mul_comm]
  rw [ByteArray.appendHex, appendHex_loop_pair c1 c2 [] ba h1 h2, hb]
  simp [appendHex_loop, ByteArray.appendByte, ByteArray.append]

/-- C15, witness: `"ZZ"` appends `[0x00]`, and so `"G1"` appends `[0x01]`. -/
theorem C15_hex_lenient_witness :
    ((0x5A : byte) ≠ SPACE ∧ (ByteArray.appendHex ⟨[], Endian.System⟩ [0x5A, 0x5A]).bytes = [0x00])
      ∧ ((0x47 : byte) ≠ SPACE ∧ (0x31 : byte) ≠ SPACE
        ∧ (ByteArray.appendHex ⟨[], Endian.System⟩ [0x47, 0x31]).bytes = [0x01]) := by
  refine ⟨⟨by decide, ?_⟩, by decide, by decide, ?_⟩
  · rw [C15_hex_lenient ⟨[], Endian.System⟩ 0x5A 0x5A (by decide) (by decide)]
    decide
  · rw [C15_hex_lenient ⟨[], Endian.System⟩ 0x47 0x31 (by decide) (by decide)]
    decide

/-- C16: an unpaired trailing digit is dropped: for a text `s` of `2n` non-space
characters and a non-space character `c`, `appendHex(s ++ c)` appends exactly
the `n` bytes that `appendHex(s)` appends (this holds for any character `c`). -/
theorem C16_hex_trailing_digit (ba : ByteArray) (s : List byte) (n : Nat) (c : byte)
    (hs : s.length = 2 * n) (hns : ∀ x ∈ s, x ≠ SPACE) :
    ba.appendHex (s ++ [c]) = ba.appendHex s
      ∧ ∃ out : List byte, out.length = n ∧ ba.appendHex s = ba.append out := by
  obtain ⟨out, hlen, h⟩ := appendHex_loop_even n s ba hs hns
  have h1 : ba.appendHex (s ++ [c]) = ba.append out := by
    rw [ByteArray.appendHex, h [c], appendHex_loop_single]
  have h0 : ba.appendHex s = ba.append out := by
    have := h []
    rw [List.append_nil] at this
    rw [ByteArray.appendHex, this]
    rfl
  exact ⟨h1.trans h0.symm, out, hlen, h0⟩

/-- C16, witness: `appendHex("ABC")` on an empty buffer yields `[0xAB]`, as
`appendHex("AB")` does. -/
theorem C16_hex_trailing_digit_witness :
    ([0x41, 0x42] : List byte).length = 2 * 1
      ∧ (ByteArray.appendHex ⟨[], Endian.System⟩ ([0x41, 0x42] ++ [0x43])).bytes = [0xAB] := by
  refine ⟨rfl, ?_⟩
  rw [(C16_hex_trailing_digit ⟨[], Endian.System⟩ [0x41, 0x42] 1 0x43 rfl
    (by simp [SPACE])).1]
  decide

/-- C17: a digit immediately followed by a space is skipped: for a non-space
character `c` and any text `t`, `appendHex(c ++ " " ++ t)` appends exactly what
`appendHex(t)` appends. -/
theorem C17_hex_digit_then_space (ba : ByteArray) (c : byte) (t : List byte)
    (hc : c ≠ SPACE) :
    ba.appendHex (c :: SPACE :: t) = ba.appendHex t :=
  appendHex_loop_digit_space c t ba hc

/-- C17, witness: `appendHex("A BC")` on an empty buffer yields `[0xBC]`, and
`appendHex("ABC DE")` yields `[0xAB, 0xDE]`. -/
theorem C17_hex_digit_then_space_witness :
    (0x41 : byte) ≠ SPACE
      ∧ (ByteArray.appendHex ⟨[], Endian.System⟩ (0x41 :: SPACE :: [0x42, 0x43])).bytes = [0xBC]
      ∧ (ByteArray.appendHex ⟨[], Endian.System⟩ [0x41, 0x42, 0x43, 0x20, 0x44, 0x45]).bytes
        = [0xAB, 0xDE] := by
  refine ⟨by decide, ?_, by decide⟩
  rw [C17_hex_digit_then_space ⟨[], Endian.System⟩ 0x41 [0x42, 0x43] (by decide)]
  decide

/-- C20: hex decoding is case-insensitive: `appendHex(s)` appends what
`appendHex` of `s` with every letter `a`-`z` in uppercase appends; and the
lowercase form of `toHex(pretty=false)` of a buffer holding `b` decodes to
`b`. -/
theorem C20_hex_case_insensitive (charSigned : Bool) (e : Endian) (ba src : ByteArray)
    (s : List byte) :
    ba.appendHex (s.map to_upper) = ba.appendHex s
      ∧ (src.toHex charSigned false).map
          (fun t => (ByteArray.appendHex ⟨[], e⟩ (t.map to_lower)).bytes)
        = Outcome.value src.bytes := by
  constructor
  · exact appendHex_loop_upper s.length s ba (Nat.le_refl _)
  · rw [toHex_plain]
    simp only [Outcome.map, ByteArray.appendHex, appendHex_loop_lower_pairs, List.nil_append]

/-! ## Lemmas on insertion -/

theorem memcpy_within_shift (p q : List byte) (L : Nat) (h : q.length ≤ L) :
    memcpy_within (p ++ q ++ List.replicate L 0) (p.length + L) p.length q.length
      = Outcome.value (p ++ (q ++ List.replicate (L - q.length) 0) ++ q) := by
  by_cases hq : q.length = 0
  · have hq0 : q = [] := List.length_eq_zero.mp hq
    subst hq0
    simp [memcpy_within]
  · have hcond : p.length + L + q.length ≤ (p ++ q ++ List.replicate L (0 : byte)).length
        ∧ p.length + q.length ≤ (p ++ q ++ List.replicate L (0 : byte)).length
        ∧ (p.length + q.length ≤ p.length + L ∨ p.length + L + q.length ≤ p.length) := by
      simp only [List.length_append, List.length_replicate]
      omega
    have e1 : List.take (p.length + L) (p ++ q ++ List.replicate L (0 : byte))
        = p ++ (q ++ List.replicate (L - q.length) 0) := by
      rw [List.append_assoc, List.take_append,
        show L = q.length + (L - q.length) by omega, List.take_append]
      simp
    have e2 : List.take q.length (List.drop p.length (p ++ q ++ List.replicate L (0 : byte)))
        = q := by
      rw [List.append_assoc, List.drop_left]
      simp
    have e3 : List.drop (p.length + L + q.length) (p ++ q ++ List.replicate L (0 : byte))
        = [] := by
      apply List.drop_of_length_le
      simp only [List.length_append, List.length_replicate]
      omega
    simp only [memcpy_within, hq, if_false, hcond, and_self, if_true, e1, e2, e3,
      List.append_nil]

theorem memcpy_from_middle (p w q v : List byte) (hw : w.length = v.length) :
    memcpy_from (p ++ w ++ q) p.length v = Outcome.value (p ++ v ++ q) := by
  have hcond : p.length + v.length ≤ (p ++ w ++ q).length := by
    simp only [List.length_append]
    omega
  have e1 : List.take p.length (p ++ w ++ q) = p := by
    rw [List.append_assoc, List.take_left]
  have e2 : List.drop (p.length + v.length) (p ++ w ++ q) = q := by
    rw [List.append_assoc, List.drop_append, ← hw, List.drop_left]
  simp only [memcpy_from, hcond, if_true, e1, e2]

theorem writeBytes_split (p q v : List byte) (e : Endian) (h : q.length ≤ v.length) :
    ByteArray.writeBytes ⟨p ++ q, e⟩ v p.length = Outcome.value ⟨p ++ v ++ q, e⟩ := by
  have hr : List.take ((p ++ q).length + v.length) (p ++ q)
      ++ List.replicate ((p ++ q).length + v.length - (p ++ q).length) (0 : byte)
      = p ++ q ++ List.replicate v.length 0 := by
    rw [List.take_of_length_le (by omega), Nat.add_sub_cancel_left]
  have hn : size_sub (size_sub ((p ++ q ++ List.replicate v.length (0 : byte)).length) p.length)
      v.length = q.length := by
    have hin : size_sub (p.length + q.length + v.length) p.length = q.length + v.length := by
      simp only [size_sub]
      rw [if_pos (by omega)]
      omega
    simp only [List.length_append, List.length_replicate, hin]
    simp only [size_sub]
    rw [if_pos (by omega)]
    omega
  have hw : (q ++ List.replicate (v.length - q.length) (0 : byte)).length = v.length := by
    simp only [List.length_append, List.length_replicate]
    omega
  simp only [ByteArray.writeBytes, ByteArray.resize, ByteArray.size, hr, hn,
    memcpy_within_shift p q v.length h, Outcome.bind, memcpy_from_middle p _ q v hw]

/-- C18: when the inserted block is at least as long as the suffix it
displaces, the two copy regions of `writeBytes` do not overlap and the
insertion is exact: with `o <= length(b)` and `len(v) >= length(b) - o`,
`writeBytes(v, len(v), o)` yields `b[0..o) ++ v ++ b[o..)`; at
`o = length(b)` it equals `append(v)`. -/
theorem C18_writeBytes_disjoint (ba : ByteArray) (v : List byte) (o : Nat)
    (ho : o ≤ ba.size) (hv : ba.size - o ≤ v.length) :
    ba.writeBytes v o
        = Outcome.value { ba with bytes := ba.bytes.take o ++ v ++ ba.bytes.drop o }
      ∧ ba.writeBytes v ba.size = Outcome.value (ba.append v) := by
  have hlen : (ba.bytes.take o).length = o := by
    rw [List.length_take]
    exact Nat.min_eq_left ho
  have h1 := writeBytes_split (ba.bytes.take o) (ba.bytes.drop o) v ba.endian
    (by rw [List.length_drop]; exact hv)
  rw [List.take_append_drop, hlen] at h1
  have h2 := writeBytes_split ba.bytes [] v ba.endian (Nat.zero_le _)
  rw [List.append_nil, List.append_nil] at h2
  exact ⟨h1, h2⟩

/-- C18, witness: on `[1,2,3,4]`, `writeBytes([8,9], 2, 2)` yields
`[1,2,8,9,3,4]`. -/
theorem C18_writeBytes_disjoint_witness :
    2 ≤ ByteArray.size ⟨[1, 2, 3, 4], Endian.Big⟩
      ∧ ByteArray.size ⟨[1, 2, 3, 4], Endian.Big⟩ - 2 ≤ ([8, 9] : List byte).length
      ∧ ByteArray.writeBytes ⟨[1, 2, 3, 4], Endian.Big⟩ [8, 9] 2
        = Outcome.value ⟨[1, 2, 8, 9, 3, 4], Endian.Big⟩ :=
  ⟨by decide, by decide,
    (C18_writeBytes_disjoint ⟨[1, 2, 3, 4], Endian.Big⟩ [8, 9] 2 (by decide) (by decide)).1⟩

/-- C19: copy construction copies the bytes but not the endian mode:
`ByteArray(b)` holds the bytes of `b` with `endian = System`, and so does the
buffer returned by `readBytes`; hence, with `b.endian = Big` on a little-endian
host, `readUint16(0)` on the copy is the byte-swapped `readUint16(0)` on `b`. -/
theorem C19_copy_endian (b : ByteArray) (len offset : Nat) :
    ((ByteArray.copy b).bytes = b.bytes ∧ (ByteArray.copy b).endian = Endian.System)
      ∧ b.readBytes len offset
        = (load b.bytes offset len).map (fun bs => (⟨bs, Endian.System⟩, b))
      ∧ (ByteArray.copy (b.setEndian Endian.Big)).readUint16 true 0
        = ((b.setEndian Endian.Big).readUint16 true 0).map __builtin_bswap16
      ∧ ((ByteArray.copy ⟨[0x01, 0x02], Endian.Big⟩).readUint16 true 0 = Outcome.value 0x0201
        ∧ (ByteArray.mk [0x01, 0x02] Endian.Big).readUint16 true 0 = Outcome.value 0x0102) := by
  refine ⟨⟨by simp [ByteArray.copy, ByteArray.appendArray], rfl⟩, ?_, ?_, by decide⟩
  · simp [ByteArray.readBytes, ByteArray.ofBytes, ByteArray.append]
  · simp only [ByteArray.readUint16, ByteArray.copy, ByteArray.appendArray, ByteArray.setEndian,
      List.nil_append]
    cases load b.bytes 0 2 <;>
      simp [Outcome.map, ByteArray.swaps, getSystemEndian, bswap16_bswap16]

end ByteArrayHpp
